import Mathlib

-- Verification of translate.py (Translate-mod repository).
-- The program text is embedded shallowly over List Char: Python strings become
-- lists of characters, regular-expression scans become deterministic scanners
-- equivalent to the greedy backtracking behaviour of the concrete patterns used
-- in the source, and the mutable global cache becomes an explicit function
-- argument threaded through results.

namespace TranslateMod

------------------------------------------------------------------------------
-- Definitions
------------------------------------------------------------------------------

-- Character constants used throughout (an apostrophe, a backslash, a double
-- quote).  The apostrophe is written via its code point 39.
def squote : Char := Char.ofNat 39

def bslash : Char := '\\'

def dquote : Char := '"'

-- escape_quotes (translate.py lines 210-215).
-- re.sub with a negative lookbehind replaces every quote character whose
-- predecessor in the input is not a backslash by a backslash followed by the
-- quote; the lookbehind always inspects the original character before the
-- match position, which is the prev argument here.
def subUnescaped (q : Char) : Option Char → List Char → List Char
  | _, [] => []
  | prev, c :: rest =>
    if c = q ∧ prev ≠ some bslash then bslash :: c :: subUnescaped q (some c) rest
    else c :: subUnescaped q (some c) rest

-- First all unescaped double quotes are escaped, then, on the result, all
-- unescaped single quotes (the order of the two re.sub calls in the source).
def escape_quotes (s : List Char) : List Char :=
  subUnescaped squote none (subUnescaped dquote none s)

-- allEscapedB q prev s states that every occurrence of q in s is directly
-- preceded by a backslash (prev being the character just before s).
def allEscapedB (q : Char) : Option Char → List Char → Bool
  | _, [] => true
  | prev, c :: rest => ((c != q) || (prev == some bslash)) && allEscapedB q (some c) rest

-- Python str.isspace, restricted to the code points Python treats as
-- whitespace (the default str.strip set).
def isPySpace (c : Char) : Bool :=
  (9 ≤ c.toNat && c.toNat ≤ 13) || (28 ≤ c.toNat && c.toNat ≤ 32) ||
  c.toNat = 0x85 || c.toNat = 0xA0 || c.toNat = 0x1680 ||
  (0x2000 ≤ c.toNat && c.toNat ≤ 0x200A) || c.toNat = 0x2028 || c.toNat = 0x2029 ||
  c.toNat = 0x202F || c.toNat = 0x205F || c.toNat = 0x3000

-- The character class of the regex [぀-ヿ] used by the Japanese skip
-- rule (translate.py line 284).
def isHiraganaKatakana (c : Char) : Bool :=
  0x3040 ≤ c.toNat && c.toNat ≤ 0x30FF

-- The character class of the regex [぀-ヿ一-鿿] used by the
-- translatability tests in translate_file (lines 334, 371, 403).
def isCJKchar (c : Char) : Bool :=
  (0x3040 ≤ c.toNat && c.toNat ≤ 0x30FF) || (0x4E00 ≤ c.toNat && c.toNat ≤ 0x9FFF)

-- re.search of the class over a string succeeds iff some character is in it.
def containsHiragana (s : List Char) : Bool := s.any isHiraganaKatakana

def containsCJK (s : List Char) : Bool := s.any isCJKchar

-- Python lstrip and rstrip with an arbitrary character predicate.
def pyRStripP (p : Char → Bool) (s : List Char) : List Char :=
  (s.reverse.dropWhile p).reverse

-- The maximal trailing run of characters satisfying p (the part removed by
-- rstrip).
def trailRunP (p : Char → Bool) (s : List Char) : List Char :=
  (s.reverse.takeWhile p).reverse

-- Python str.strip() / the leading and trailing whitespace captures used for
-- quoted strings in translate_file (lines 379-380, 410-411).
def wsLead (s : List Char) : List Char := s.takeWhile isPySpace

def wsTrail (s : List Char) : List Char := trailRunP isPySpace s

def stripWs (s : List Char) : List Char := pyRStripP isPySpace (s.dropWhile isPySpace)

-- The decoration-character sets of the comment handling (translate.py lines
-- 342-346): lstrip uses the set "-[= .\t", rstrip the set "]-= .\t".
def leadDecoSet : List Char := ['-', '[', '=', ' ', '.', '\t']

def trailDecoSet : List Char := [']', '-', '=', ' ', '.', '\t']

def inLeadDeco (c : Char) : Bool := decide (c ∈ leadDecoSet)

def inTrailDeco (c : Char) : Bool := decide (c ∈ trailDecoSet)

def decoLead (s : List Char) : List Char := s.takeWhile inLeadDeco

def decoTrail (s : List Char) : List Char := trailRunP inTrailDeco s

def trimComment (s : List Char) : List Char :=
  pyRStripP inTrailDeco (s.dropWhile inLeadDeco)

-- Python str.replace(old, new): replace all non-overlapping occurrences,
-- scanning left to right.  The fuel argument only serves termination; each
-- step consumes at least one character of s, so fuel = s.length in the
-- wrapper below never runs out and the recursion is exactly str.replace.
def replaceAllF (pat rep : List Char) : Nat → List Char → List Char
  | 0, s => s
  | _, [] => []
  | fuel + 1, c :: cs =>
    if pat ≠ [] ∧ pat.isPrefixOf (c :: cs) then
      rep ++ replaceAllF pat rep fuel ((c :: cs).drop pat.length)
    else
      c :: replaceAllF pat rep fuel cs

def replaceAll (pat rep s : List Char) : List Char := replaceAllF pat rep s.length s

-- Substring occurrence (Python "in" for strings).
def occursIn (pat : List Char) : List Char → Bool
  | [] => pat.isEmpty
  | c :: cs => pat.isPrefixOf (c :: cs) || occursIn pat cs

-- The conversion characters of the format-specifier regex
-- %(?:\d+)?(?:\.\d+)?[diouxXeEfFgGcrs%]  (translate.py line 220).
def isConvChar (c : Char) : Bool :=
  c == 'd' || c == 'i' || c == 'o' || c == 'u' || c == 'x' || c == 'X' ||
  c == 'e' || c == 'E' || c == 'f' || c == 'F' || c == 'g' || c == 'G' ||
  c == 'c' || c == 'r' || c == 's' || c == '%'

-- Greedy match of the part of the specifier regex after the percent sign:
-- optional digits, then an optional dot-digits group, then one conversion
-- character.  Backtracking inside the digit groups can never produce a match
-- that the greedy parse misses, because no digit and no dot is a conversion
-- character, so the deterministic parse below equals the regex engine.
def matchSpecTail (cs : List Char) : Option (List Char × List Char) :=
  let ds := cs.takeWhile Char.isDigit
  match cs.dropWhile Char.isDigit with
  | '.' :: r2 =>
    let ds2 := r2.takeWhile Char.isDigit
    match r2.dropWhile Char.isDigit with
    | c :: rest =>
      if ds2 ≠ [] ∧ isConvChar c then some (ds ++ '.' :: (ds2 ++ [c]), rest) else none
    | [] => none
  | c :: rest => if isConvChar c then some (ds ++ [c], rest) else none
  | [] => none

-- re.findall of the specifier pattern: scan left to right, taking
-- non-overlapping matches, advancing one character on failure.  The fuel is
-- the input length; each step consumes at least one character, so the fuel
-- never runs out and the scan equals findall.
def findSpecsF : Nat → List Char → List (List Char)
  | 0, _ => []
  | _, [] => []
  | fuel + 1, '%' :: rest =>
    match matchSpecTail rest with
    | some (tok, rest2) => ('%' :: tok) :: findSpecsF fuel rest2
    | none => findSpecsF fuel rest
  | fuel + 1, _ :: rest => findSpecsF fuel rest

def findSpecs (s : List Char) : List (List Char) := findSpecsF s.length s

-- The two fatal outcomes of check_format_specifiers (raised as SystemExit in
-- the source); the payloads record what the error message interpolates:
-- the two whole strings for a count mismatch, and the 1-indexed position
-- plus the two differing tokens for a token mismatch.
inductive FormatError where
  | countMismatch (original translated : List Char)
  | specMismatch (position : Nat) (origTok transTok : List Char)
deriving DecidableEq, Repr

-- The for-loop over zip(original_specifiers, translated_specifiers)
-- (translate.py lines 234-238); i is the current 0-based index.
def zipCheck : Nat → List (List Char × List Char) → Except FormatError Unit
  | _, [] => .ok ()
  | i, (o, t) :: ps =>
    if o ≠ t then .error (.specMismatch (i + 1) o t) else zipCheck (i + 1) ps

-- check_format_specifiers (translate.py lines 218-238).  SystemExit is
-- modelled as the error case of Except; note that SystemExit does not derive
-- from Exception in Python, so the retry loop of translate_text does not
-- catch it.
def check_format_specifiers (original translated : List Char) : Except FormatError Unit :=
  let os := findSpecs original
  let ts := findSpecs translated
  if 0 < os.length ∧ os.length ≠ ts.length then .error (.countMismatch original translated)
  else zipCheck 0 (os.zip ts)

-- Claim-side description of the validator (used only to state claim C2):
-- no check when the original has no placeholders; otherwise fail on a count
-- mismatch, otherwise fail at the first 1-indexed position where the token
-- lists differ, otherwise succeed.
def firstTokenMismatch :
    Nat → List (List Char) → List (List Char) → Option (Nat × List Char × List Char)
  | _, [], _ => none
  | _, _ :: _, [] => none
  | i, o :: os, t :: ts =>
    if o ≠ t then some (i + 1, o, t) else firstTokenMismatch (i + 1) os ts

def checkSpecClaim (original translated : List Char) : Except FormatError Unit :=
  let os := findSpecs original
  let ts := findSpecs translated
  if os = [] then .ok ()
  else if os.length ≠ ts.length then .error (.countMismatch original translated)
  else
    match firstTokenMismatch 0 os ts with
    | some (p, o, t) => .error (.specMismatch p o t)
    | none => .ok ()

-- Lexicographic order on code points (Python string comparison, used by
-- list.sort on the Found In path list).
def leChars : List Char → List Char → Bool
  | [], _ => true
  | _ :: _, [] => false
  | a :: as, b :: bs =>
    if a.toNat < b.toNat then true
    else if b.toNat < a.toNat then false
    else leChars as bs

def insertSorted (x : List Char) : List (List Char) → List (List Char)
  | [] => [x]
  | y :: ys => if leChars x y then x :: y :: ys else y :: insertSorted x ys

-- Python list.sort (insertion sort gives the same sorted list; equal keys are
-- identical strings, so stability is unobservable).
def sortPaths : List (List Char) → List (List Char)
  | [] => []
  | x :: xs => insertSorted x (sortPaths xs)

def checkMark : List Char := ['✔']

-- The cache record for one fragment (a row of the Dictionary sheet and the
-- value stored in translations_cache, translate.py lines 105-115 and 259-315).
-- A missing Translated_Text key and an empty string are both falsy in Python;
-- both are modelled by the empty list.
structure TranslationRecord where
  translatedText : List Char := []
  isComment : List Char := []
  isQuotes : List Char := []
  foundIn : List (List Char) := []
deriving DecidableEq, Repr

-- The global translations_cache, as an explicit value.
abbrev Cache := List Char → Option TranslationRecord

def emptyRecord : TranslationRecord := {}

def setCache (cache : Cache) (k : List Char) (v : TranslationRecord) : Cache :=
  fun x => if x = k then some v else cache x

-- The in-place mutation of translated_entry at the start of translate_text
-- (lines 263-275): set the role flag, then append the relative path to
-- Found_In if absent and re-sort.  get_path_start_from_mod_folder is
-- abstracted: relPath is the relative path it computes for the file.
def updateEntry (e : TranslationRecord) (isComment : Bool) (relPath : List Char) :
    TranslationRecord :=
  let e1 :=
    if isComment then { e with isComment := checkMark } else { e with isQuotes := checkMark }
  if relPath ∈ e1.foundIn then e1
  else { e1 with foundIn := sortPaths (e1.foundIn ++ [relPath]) }

def cachedTranslation (cache : Cache) (text : List Char) : List Char :=
  ((cache text).getD emptyRecord).translatedText

-- Python aliasing: translated_entry is the cached dict object itself when the
-- fragment has a (necessarily non-empty, as built by this program) cache
-- entry, so the flag/path mutations persist even on paths that never assign
-- translations_cache[text]; when the fragment is absent the fresh dict is
-- simply discarded on those paths.
def cacheAfterSighting (cache : Cache) (text : List Char) (entry : TranslationRecord) : Cache :=
  if (cache text).isSome then setCache cache text entry else cache

-- Python str.capitalize: the first character is uppercased and every
-- following character is lowercased (case mapping modelled for ASCII, which
-- covers the translation output alphabet).
def pyCapitalize : List Char → List Char
  | [] => []
  | c :: cs => c.toUpper :: cs.map Char.toLower

-- translated.text.capitalize().replace("\\ n", "\\n")  (translate.py line 297).
def processBackend (b : List Char) : List Char :=
  replaceAll [bslash, ' ', 'n'] [bslash, 'n'] (pyCapitalize b)

-- The observable result of one translate_text call: the returned string
-- (none only in the degenerate retries = 0 case, where the Python function
-- falls off the loop and returns None), the cache afterwards, the
-- japanese_skip list afterwards, and how many times translator.translate was
-- invoked.
structure TTOutcome where
  text : Option (List Char)
  cache : Cache
  skipped : List (List Char)
  calls : Nat

-- The retry loop of translate_text (lines 293-315).  The external translator
-- is modelled as a function from the attempt number to its outcome: none
-- means the backend raised an exception on that attempt, some b means it
-- returned text b.  A SystemExit from check_format_specifiers is not caught
-- by the except Exception handler and propagates (Except.error).
def translateLoop (cache : Cache) (skipped : List (List Char)) (text : List Char)
    (tr : Nat → Option (List Char)) (entry : TranslationRecord) :
    Nat → Nat → Except FormatError TTOutcome
  | 0, attempt => .ok ⟨none, cacheAfterSighting cache text entry, skipped, attempt⟩
  | rem + 1, attempt =>
    match tr attempt with
    | some b =>
      match check_format_specifiers text (processBackend b) with
      | .error err => .error err
      | .ok _ =>
        .ok ⟨some (processBackend b),
             setCache cache text { entry with translatedText := processBackend b },
             skipped, attempt + 1⟩
    | none =>
      if rem = 0 then
        .ok ⟨some text, cacheAfterSighting cache text entry, skipped, attempt + 1⟩
      else translateLoop cache skipped text tr entry rem (attempt + 1)

-- translate_text (translate.py lines 259-315).
def translate_text (cache : Cache) (skipped : List (List Char)) (text : List Char)
    (tr : Nat → Option (List Char)) (isComment : Bool) (relPath : List Char)
    (retries : Nat := 100) : Except FormatError TTOutcome :=
  let entry := updateEntry ((cache text).getD emptyRecord) isComment relPath
  if entry.translatedText ≠ [] then
    match check_format_specifiers text entry.translatedText with
    | .error err => .error err
    | .ok _ => .ok ⟨some entry.translatedText, setCache cache text entry, skipped, 0⟩
  else if containsHiragana text then
    .ok ⟨some text, setCache cache text { entry with translatedText := text },
         skipped ++ [text], 0⟩
  else
    translateLoop cache skipped text tr entry retries 0

-- What claim C7 literally asserts the returned text is: the backend text with
-- only its first letter capitalized (no other letters altered) and the
-- backslash-space-n artifact collapsed.
def capFirstClaimed : List Char → List Char
  | [] => []
  | c :: cs => c.toUpper :: cs

def claimedProcess (b : List Char) : List Char :=
  replaceAll [bslash, ' ', 'n'] [bslash, 'n'] (capFirstClaimed b)

-- Greedy match of the comment-body regex fragment after the double dash,
-- [^-\n]*(?:-[^-\n]+)*  (translate.py line 330): consume characters up to a
-- newline or up to a dash that is not followed by a non-dash non-newline
-- character; the stopping character is left unconsumed.
def commentTail : List Char → List Char × List Char
  | [] => ([], [])
  | c :: rest =>
    if c = '\n' then ([], c :: rest)
    else if c = '-' then
      match rest with
      | [] => ([], ['-'])
      | d :: rest2 =>
        if d = '-' ∨ d = '\n' then ([], c :: rest)
        else ('-' :: d :: (commentTail rest2).1, (commentTail rest2).2)
    else (c :: (commentTail rest).1, (commentTail rest).2)

-- re.findall of the comment regex: scan for a double dash, take the maximal
-- comment, continue after it.  Fuel is the input length; every step consumes
-- at least one character (a match consumes the two dashes and its body), so
-- the fuel never runs out and the scan equals findall.
def scanCommentsF : Nat → List Char → List (List Char)
  | 0, _ => []
  | _, [] => []
  | fuel + 1, '-' :: '-' :: rest =>
    ('-' :: '-' :: (commentTail rest).1) :: scanCommentsF fuel (commentTail rest).2
  | fuel + 1, _ :: rest => scanCommentsF fuel rest

def scanComments (cs : List Char) : List (List Char) := scanCommentsF cs.length cs

-- Greedy match of the quoted-string content, [^q\n\\]*(?:\\.[^q\n\\]*)*
-- followed by the closing quote (translate.py lines 363 and 396): an escaped
-- pair is a backslash followed by any character except a newline; the regex
-- has no other nondeterminism because the content class excludes the quote,
-- so the deterministic parse equals the regex engine.  Returns the captured
-- content and the remainder after the closing quote.
def matchQContent (q : Char) : List Char → Option (List Char × List Char)
  | [] => none
  | c :: rest =>
    if c = q then some ([], rest)
    else if c = '\n' then none
    else if c = bslash then
      match rest with
      | [] => none
      | d :: rest2 =>
        if d = '\n' then none
        else (matchQContent q rest2).map (fun p => (bslash :: d :: p.1, p.2))
    else (matchQContent q rest).map (fun p => (c :: p.1, p.2))

-- re.findall of the quoted-string regex with its negative lookbehind: a
-- quote opens a span only when the preceding character of the buffer (prev)
-- is not a backslash.  Fuel is the input length; every step consumes at
-- least one character (a match also consumes the closing quote), so the
-- fuel never runs out and the scan equals findall, returning the captured
-- group (the span content).
def scanQuotedF (q : Char) : Nat → Option Char → List Char → List (List Char)
  | 0, _, _ => []
  | _, _, [] => []
  | fuel + 1, prev, c :: rest =>
    if c = q ∧ prev ≠ some bslash then
      match matchQContent q rest with
      | some (m, r) => m :: scanQuotedF q fuel (some q) r
      | none => scanQuotedF q fuel (some c) rest
    else scanQuotedF q fuel (some c) rest

def scanSingle (cs : List Char) : List (List Char) := scanQuotedF squote cs.length none cs

-- The single-quoted pattern text replaced in the buffer (the f-string
-- 'string' of line 424) and the double-quoted replacement built from the
-- translated core (line 415-424): leading and trailing whitespace around the
-- escaped translation, wrapped in double quotes.
def q1 (s : List Char) : List Char := squote :: (s ++ [squote])

def dqRewrite (tx : List Char → List Char) (s : List Char) : List Char :=
  dquote :: (wsLead s ++ escape_quotes (tx (stripWs s)) ++ wsTrail s ++ [dquote])

-- The replacement span for a comment (lines 342-354): decoration runs
-- reattached around the translated trimmed core.
def commentRewrite (tx : List Char → List Char) (comment : List Char) : List Char :=
  decoLead comment ++ tx (trimComment comment) ++ decoTrail comment

-- One iteration of the comment loop of translate_file (lines 333-358).  The
-- translation oracle tx gives the string translate_text returns for a
-- submitted core; the step returns the new buffer and the list of cores
-- submitted for translation.
def commentStep (tx : List Char → List Char) (buf comment : List Char) :
    List Char × List (List Char) :=
  if containsCJK comment && !(stripWs comment).isEmpty then
    (replaceAll comment (commentRewrite tx comment) buf, [trimComment comment])
  else (buf, [])

-- The comment phase of translate_file: findall once on the incoming buffer,
-- then fold the per-span steps over the evolving buffer.
def commentPhase (tx : List Char → List Char) (content : List Char) :
    List Char × List (List Char) :=
  (scanComments content).foldl
    (fun acc comment =>
      ((commentStep tx acc.1 comment).1, acc.2 ++ (commentStep tx acc.1 comment).2))
    (content, [])

-- One iteration of the single-quote loop of translate_file (lines 402-425):
-- the span is rewritten as a double-quoted span with the translated core
-- escaped and the captured whitespace preserved.
def singleQuoteStep (tx : List Char → List Char) (buf s : List Char) :
    List Char × List (List Char) :=
  if containsCJK s && !(stripWs s).isEmpty then
    (replaceAll (q1 s) (dqRewrite tx s) buf, [stripWs s])
  else (buf, [])

-- The single-quote phase of translate_file; content is the buffer entering
-- this phase (after the comment and double-quote phases).
def singleQuotePhase (tx : List Char → List Char) (content : List Char) :
    List Char × List (List Char) :=
  (scanSingle content).foldl
    (fun acc s =>
      ((singleQuoteStep tx acc.1 s).1, acc.2 ++ (singleQuoteStep tx acc.1 s).2))
    (content, [])

-- Concrete instance refuting claim C5: a buffer with two single-quoted
-- spans, the second containing an escaped quote, where replacing the first
-- span destroys the second span's quoted pattern.  Reachable as the
-- single-quote-phase buffer of a file with no comments and no double quotes.
def c5content : List Char :=
  [squote, '好', squote, ' ', squote, '你', bslash, squote, '好', squote]

def c5tx : List Char → List Char := fun c => if c = ['好'] then ['A'] else ['B']

def c5span : List Char := ['你', bslash, squote, '好']

-- Concrete instance refuting claim C6: two comments where the first comment
-- text occurs inside the second, so replacing the first destroys the second
-- comment's pattern before its turn.
def c6content : List Char := ['-', '-', ' ', '你', '\n', '-', '-', ' ', '你', '好']

def c6tx : List Char → List Char := fun c => if c = ['你'] then ['A'] else ['B']

def c6comment : List Char := ['-', '-', ' ', '你', '好']

-- Outcome of one client.open attempt in save_translations_to_google_sheets:
-- success, or an HttpError with the given status code.  HttpError is the
-- only exception type the retry loop catches; any other exception simply
-- propagates in the source and is outside this model.
inductive OpenAttempt where
  | ok
  | httpErr (status : Nat)
deriving DecidableEq, Repr

-- The observable result of save_translations_to_google_sheets: the sheet was
-- updated, the local backup file was written instead, or an exception was
-- re-raised out of the function.  sleeps records the time.sleep(2 ** attempt)
-- backoff delays performed before the outcome.
inductive SaveOutcome where
  | savedToSheet (sleeps : List Nat)
  | savedToBackup (sleeps : List Nat)
  | raised (status : Nat) (sleeps : List Nat)
deriving DecidableEq, Repr

-- The retry loop of save_translations_to_google_sheets (translate.py lines
-- 144-194), modelled from the sheet-open attempts onward: up to 3 attempts;
-- a 500/503 HttpError sleeps 2^attempt and retries; any other HttpError is
-- re-raised; if no attempt succeeded the function saves a local backup.
-- After a successful open, the clear/update block runs: updateFails says
-- whether it raises, in which case the handler saves the local backup.
def saveLoop (attempts : Nat → OpenAttempt) (updateFails : Bool) :
    Nat → Nat → List Nat → SaveOutcome
  | 0, _, sleeps => .savedToBackup sleeps
  | rem + 1, i, sleeps =>
    match attempts i with
    | .ok => if updateFails then .savedToBackup sleeps else .savedToSheet sleeps
    | .httpErr s =>
      if s = 500 ∨ s = 503 then saveLoop attempts updateFails rem (i + 1) (sleeps ++ [2 ^ i])
      else .raised s sleeps

def save_translations (attempts : Nat → OpenAttempt) (updateFails : Bool) : SaveOutcome :=
  saveLoop attempts updateFails 3 0 []

def c8attempts : Nat → OpenAttempt := fun _ => .httpErr 500

------------------------------------------------------------------------------
-- Theorems
------------------------------------------------------------------------------

theorem allEscapedB_subUnescaped (q : Char) (hq : q ≠ bslash) :
    ∀ (s : List Char) (prev : Option Char), allEscapedB q prev (subUnescaped q prev s) = true := by
  intro s
  induction s with
  | nil => intro prev; rfl
  | cons c rest ih =>
    intro prev
    by_cases h : c = q ∧ prev ≠ some bslash
    · simp only [subUnescaped, if_pos h, allEscapedB, Bool.and_eq_true, Bool.or_eq_true,
        bne_iff_ne, beq_iff_eq]
      refine ⟨Or.inl (Ne.symm hq), by simp, ih (some c)⟩
    · simp only [subUnescaped, if_neg h, allEscapedB, Bool.and_eq_true, Bool.or_eq_true,
        bne_iff_ne, beq_iff_eq]
      push_neg at h
      refine ⟨?_, ih (some c)⟩
      by_cases hc : c = q
      · exact Or.inr (h hc)
      · exact Or.inl hc

theorem subUnescaped_of_allEscaped (q : Char) :
    ∀ (s : List Char) (prev : Option Char),
      allEscapedB q prev s = true → subUnescaped q prev s = s := by
  intro s
  induction s with
  | nil => intro prev _; rfl
  | cons c rest ih =>
    intro prev hall
    simp only [allEscapedB, Bool.and_eq_true, Bool.or_eq_true, bne_iff_ne, beq_iff_eq] at hall
    obtain ⟨h1, h2⟩ := hall
    have hcond : ¬ (c = q ∧ prev ≠ some bslash) := by
      rintro ⟨hc, hp⟩
      rcases h1 with h1 | h1
      · exact h1 hc
      · exact hp h1
    simp only [subUnescaped, if_neg hcond]
    rw [ih (some c) h2]

theorem allEscapedB_subUnescaped_other (q q' : Char) (hq : q ≠ bslash) :
    ∀ (s : List Char) (prev : Option Char), allEscapedB q prev s = true →
      allEscapedB q prev (subUnescaped q' prev s) = true := by
  intro s
  induction s with
  | nil => intro prev h; exact h
  | cons c rest ih =>
    intro prev hall
    simp only [allEscapedB, Bool.and_eq_true, Bool.or_eq_true, bne_iff_ne, beq_iff_eq] at hall
    obtain ⟨h1, h2⟩ := hall
    by_cases h : c = q' ∧ prev ≠ some bslash
    · simp only [subUnescaped, if_pos h, allEscapedB, Bool.and_eq_true, Bool.or_eq_true,
        bne_iff_ne, beq_iff_eq]
      exact ⟨Or.inl (Ne.symm hq), by simp, ih (some c) h2⟩
    · simp only [subUnescaped, if_neg h, allEscapedB, Bool.and_eq_true, Bool.or_eq_true,
        bne_iff_ne, beq_iff_eq]
      exact ⟨h1, ih (some c) h2⟩

/-- Claim C10: escape_quotes is idempotent.  For every string s,
escape_quotes (escape_quotes s) = escape_quotes s, because a quote character
already preceded by a backslash is left unchanged by the substitution. -/
theorem c10_escape_quotes_idempotent (s : List Char) :
    escape_quotes (escape_quotes s) = escape_quotes s := by
  have hd : dquote ≠ bslash := by decide
  have hs : squote ≠ bslash := by decide
  have h1 : allEscapedB dquote none (subUnescaped dquote none s) = true :=
    allEscapedB_subUnescaped dquote hd s none
  have h2 : allEscapedB dquote none (escape_quotes s) = true :=
    allEscapedB_subUnescaped_other dquote squote hd (subUnescaped dquote none s) none h1
  have h3 : allEscapedB squote none (escape_quotes s) = true :=
    allEscapedB_subUnescaped squote hs (subUnescaped dquote none s) none
  show subUnescaped squote none (subUnescaped dquote none (escape_quotes s)) = escape_quotes s
  rw [subUnescaped_of_allEscaped dquote (escape_quotes s) none h2,
      subUnescaped_of_allEscaped squote (escape_quotes s) none h3]

-- takeWhile over an append whose left part has an element failing the
-- predicate only sees the left part.
theorem takeWhile_append_of_exists (p : Char → Bool) (x : Char)
    (hx : p x = false) :
    ∀ (l l2 : List Char), x ∈ l → (l ++ l2).takeWhile p = l.takeWhile p := by
  intro l
  induction l with
  | nil => intro l2 h; exact absurd h (List.not_mem_nil x)
  | cons a l ih =>
    intro l2 hmem
    by_cases ha : p a
    · have hxl : x ∈ l := by
        rcases List.mem_cons.mp hmem with h | h
        · subst h; rw [hx] at ha; exact absurd ha (by simp)
        · exact h
      simp only [List.cons_append, List.takeWhile_cons, ha, if_true]
      rw [ih l2 hxl]
    · simp only [List.cons_append, List.takeWhile_cons]
      rw [Bool.not_eq_true] at ha
      simp [ha]

-- Any list splits as the part kept by rstrip followed by the maximal trailing
-- run removed by rstrip.
theorem rstrip_decomp (p : Char → Bool) (s : List Char) :
    pyRStripP p s ++ trailRunP p s = s := by
  unfold pyRStripP trailRunP
  rw [← List.reverse_append, List.takeWhile_append_dropWhile]
  exact List.reverse_reverse s

-- Strip decomposition: if s has a character outside both strip sets, then s
-- is exactly the maximal leading run, the two-sided strip, and the maximal
-- trailing run, in that order.
theorem strip_decomp (pl pt : Char → Bool) (s : List Char) (x : Char)
    (hx : x ∈ s) (hl : pl x = false) (ht : pt x = false) :
    s.takeWhile pl ++ pyRStripP pt (s.dropWhile pl) ++ trailRunP pt s = s := by
  have hsplit : s.takeWhile pl ++ s.dropWhile pl = s := List.takeWhile_append_dropWhile pl s
  have hxrest : x ∈ s.dropWhile pl := by
    have : x ∈ s.takeWhile pl ++ s.dropWhile pl := by rw [hsplit]; exact hx
    rcases List.mem_append.mp this with h | h
    · have := List.mem_takeWhile_imp h
      rw [hl] at this
      exact absurd this (by simp)
    · exact h
  have htrail : trailRunP pt s = trailRunP pt (s.dropWhile pl) := by
    unfold trailRunP
    have : s.reverse = (s.dropWhile pl).reverse ++ (s.takeWhile pl).reverse := by
      rw [← List.reverse_append, hsplit]
    rw [this, takeWhile_append_of_exists pt x ht _ _ (List.mem_reverse.mpr hxrest)]
  rw [htrail, List.append_assoc, rstrip_decomp pt (s.dropWhile pl), hsplit]

theorem occursIn_self_append (r z : List Char) : occursIn r (r ++ z) = true := by
  cases r with
  | nil =>
    cases z with
    | nil => rfl
    | cons c cs => simp [occursIn, List.isPrefixOf]
  | cons a r' =>
    have hpre : List.isPrefixOf (a :: r') ((a :: r') ++ z) = true := by
      simp [List.isPrefixOf_iff_prefix]
    simp only [List.cons_append, occursIn]
    rw [List.cons_append] at hpre
    simp [hpre]

theorem occursIn_replaceAllF (pat rep : List Char) (hp : pat ≠ []) :
    ∀ (fuel : Nat) (s : List Char), s.length ≤ fuel →
      occursIn pat s = true → occursIn rep (replaceAllF pat rep fuel s) = true := by
  intro fuel
  induction fuel with
  | zero =>
    intro s hlen hocc
    have : s = [] := List.length_eq_zero.mp (Nat.le_zero.mp hlen)
    subst this
    simp [occursIn, List.isEmpty_iff] at hocc
    exact absurd hocc hp
  | succ fuel ih =>
    intro s hlen hocc
    cases s with
    | nil =>
      simp [occursIn, List.isEmpty_iff] at hocc
      exact absurd hocc hp
    | cons c cs =>
      by_cases hpre : pat ≠ [] ∧ pat.isPrefixOf (c :: cs)
      · simp only [replaceAllF, if_pos hpre]
        exact occursIn_self_append rep _
      · simp only [replaceAllF, if_neg hpre]
        have hocc' : occursIn pat cs = true := by
          simp only [occursIn, Bool.or_eq_true] at hocc
          rcases hocc with h | h
          · exact absurd ⟨hp, h⟩ hpre
          · exact h
        have hcs : occursIn rep (replaceAllF pat rep fuel cs) = true :=
          ih cs (by simpa using Nat.le_of_succ_le_succ hlen) hocc'
        simp only [occursIn, Bool.or_eq_true]
        exact Or.inr hcs

theorem occursIn_replaceAll (pat rep s : List Char) (hp : pat ≠ [])
    (hocc : occursIn pat s = true) : occursIn rep (replaceAll pat rep s) = true :=
  occursIn_replaceAllF pat rep hp s.length s (Nat.le_refl _) hocc

theorem zipCheck_eq_firstTokenMismatch :
    ∀ (os ts : List (List Char)) (i : Nat),
      zipCheck i (os.zip ts) =
        match firstTokenMismatch i os ts with
        | some (p, o, t) => Except.error (.specMismatch p o t)
        | none => Except.ok () := by
  intro os
  induction os with
  | nil => intro ts i; cases ts <;> rfl
  | cons o os ih =>
    intro ts i
    cases ts with
    | nil => rfl
    | cons t ts =>
      simp only [List.zip_cons_cons, zipCheck, firstTokenMismatch]
      by_cases h : o = t
      · subst h
        have hcond : ¬ (o ≠ o) := fun hh => hh rfl
        rw [if_neg hcond, if_neg hcond]
        exact ih ts (i + 1)
      · rw [if_pos h, if_pos h]

/-- Claim C2: for every pair of strings, if the original contains zero
printf-style placeholders, check_format_specifiers performs no check and
returns normally regardless of the translated text; otherwise it fails
fatally if the placeholder counts differ, and otherwise fails fatally at the
first positional index (reported 1-indexed) at which the two placeholder
tokens differ textually; when all corresponding tokens are equal it returns
normally.  This is stated as equality with checkSpecClaim, the direct
formalisation of that description. -/
theorem c2_check_format_specifiers (original translated : List Char) :
    check_format_specifiers original translated = checkSpecClaim original translated := by
  simp only [check_format_specifiers, checkSpecClaim]
  by_cases h0 : findSpecs original = []
  · rw [h0]
    simp [zipCheck]
  · by_cases hne : (findSpecs original).length = (findSpecs translated).length
    · have hc1 : ¬ (0 < (findSpecs original).length ∧
          (findSpecs original).length ≠ (findSpecs translated).length) := by
        rintro ⟨-, hc⟩; exact hc hne
      rw [if_neg hc1, if_neg h0, if_neg (fun hh => hh hne)]
      exact zipCheck_eq_firstTokenMismatch (findSpecs original) (findSpecs translated) 0
    · have hlen : 0 < (findSpecs original).length := List.length_pos.mpr h0
      rw [if_pos ⟨hlen, hne⟩, if_neg h0, if_pos hne]

theorem updateEntry_translatedText (e : TranslationRecord) (ic : Bool) (rp : List Char) :
    (updateEntry e ic rp).translatedText = e.translatedText := by
  cases ic <;> simp only [updateEntry, if_true, if_false, Bool.false_eq_true] <;>
    split <;> rfl

/-- Claim C1: for every fragment whose cache record has a non-empty translated
text, translate_text returns that cached translation without invoking the
external translator (zero backend calls), and re-validates the placeholder
sequence of the cached translation against the original on every such reuse
(an invalid sequence aborts with the validator error). -/
theorem c1_cached_reuse (cache : Cache) (skipped : List (List Char)) (text : List Char)
    (tr : Nat → Option (List Char)) (ic : Bool) (rp : List Char) (n : Nat)
    (e : TranslationRecord) (hc : cache text = some e) (hne : e.translatedText ≠ []) :
    translate_text cache skipped text tr ic rp n =
      match check_format_specifiers text e.translatedText with
      | .error err => .error err
      | .ok _ =>
        .ok ⟨some e.translatedText, setCache cache text (updateEntry e ic rp), skipped, 0⟩ := by
  simp only [translate_text]
  rw [hc, Option.getD_some, updateEntry_translatedText e ic rp, if_pos hne]

theorem translateLoop_allFail (cache : Cache) (skipped : List (List Char)) (text : List Char)
    (tr : Nat → Option (List Char)) (entry : TranslationRecord) :
    ∀ (m a : Nat), (∀ k, k < m + 1 → tr (a + k) = none) →
      translateLoop cache skipped text tr entry (m + 1) a =
        .ok ⟨some text, cacheAfterSighting cache text entry, skipped, a + (m + 1)⟩ := by
  intro m
  induction m with
  | zero =>
    intro a hfail
    have h0 : tr a = none := by simpa using hfail 0 (by omega)
    simp [translateLoop, h0]
  | succ m ih =>
    intro a hfail
    have h0 : tr a = none := by simpa using hfail 0 (by omega)
    have hrest : ∀ k, k < m + 1 → tr (a + 1 + k) = none := by
      intro k hk
      have := hfail (k + 1) (by omega)
      rw [← this]
      congr 1
      omega
    rw [translateLoop.eq_def]
    simp only [h0]
    rw [if_neg (Nat.succ_ne_zero m), ih (a + 1) hrest]
    have : a + 1 + (m + 1) = a + (m + 1 + 1) := by omega
    rw [this]

theorem translate_text_allFail (cache : Cache) (skipped : List (List Char)) (text : List Char)
    (tr : Nat → Option (List Char)) (ic : Bool) (rp : List Char) (n : Nat)
    (hn : 1 ≤ n) (hc : cachedTranslation cache text = [])
    (hh : containsHiragana text = false) (hfail : ∀ k, k < n → tr k = none) :
    translate_text cache skipped text tr ic rp n =
      .ok ⟨some text,
           cacheAfterSighting cache text (updateEntry ((cache text).getD emptyRecord) ic rp),
           skipped, n⟩ := by
  simp only [cachedTranslation] at hc
  have hne : ¬ ((updateEntry ((cache text).getD emptyRecord) ic rp).translatedText ≠ []) := by
    rw [updateEntry_translatedText, hc]
    exact fun hx => hx rfl
  obtain ⟨m, rfl⟩ : ∃ m, n = m + 1 := ⟨n - 1, by omega⟩
  simp only [translate_text]
  rw [if_neg hne, hh]
  simp only [Bool.false_eq_true, if_false]
  have hfail' : ∀ k, k < m + 1 → tr (0 + k) = none := by
    intro k hk
    simpa using hfail k hk
  rw [translateLoop_allFail cache skipped text tr _ m 0 hfail']
  simp

/-- Claim C3: for every fragment submitted to the translator, if the backend
raises an exception on every one of the configured number of attempts,
translate_text logs the failure and returns the original, untranslated
fragment text without raising, so processing continues with the source text
for that fragment. -/
theorem c3_retries_exhausted (cache : Cache) (skipped : List (List Char)) (text : List Char)
    (tr : Nat → Option (List Char)) (ic : Bool) (rp : List Char) (n : Nat)
    (hn : 1 ≤ n) (hc : cachedTranslation cache text = [])
    (hh : containsHiragana text = false) (hfail : ∀ k, k < n → tr k = none) :
    translate_text cache skipped text tr ic rp n =
      .ok ⟨some text,
           cacheAfterSighting cache text (updateEntry ((cache text).getD emptyRecord) ic rp),
           skipped, n⟩ :=
  translate_text_allFail cache skipped text tr ic rp n hn hc hh hfail

/-- Claim C4: for every fragment containing at least one character in the
Hiragana/Katakana range and no non-empty cached translation, translate_text
makes zero backend calls, returns the fragment unchanged, caches it
identity-mapped, and records it in the skipped list. -/
theorem c4_japanese_skip (cache : Cache) (skipped : List (List Char)) (text : List Char)
    (tr : Nat → Option (List Char)) (ic : Bool) (rp : List Char) (n : Nat)
    (hc : cachedTranslation cache text = [])
    (hh : containsHiragana text = true) :
    translate_text cache skipped text tr ic rp n =
      .ok ⟨some text,
           setCache cache text
             { updateEntry ((cache text).getD emptyRecord) ic rp with translatedText := text },
           skipped ++ [text], 0⟩ := by
  simp only [cachedTranslation] at hc
  have hne : ¬ ((updateEntry ((cache text).getD emptyRecord) ic rp).translatedText ≠ []) := by
    rw [updateEntry_translatedText, hc]
    exact fun hx => hx rfl
  simp only [translate_text]
  rw [if_neg hne, hh]
  simp

theorem translateLoop_success (cache : Cache) (skipped : List (List Char)) (text : List Char)
    (tr : Nat → Option (List Char)) (entry : TranslationRecord) (b : List Char) :
    ∀ (j rem a : Nat), j < rem →
      (∀ k, k < j → tr (a + k) = none) → tr (a + j) = some b →
      check_format_specifiers text (processBackend b) = .ok () →
      translateLoop cache skipped text tr entry rem a =
        .ok ⟨some (processBackend b),
             setCache cache text { entry with translatedText := processBackend b },
             skipped, a + j + 1⟩ := by
  intro j
  induction j with
  | zero =>
    intro rem a hlt hfail hb hck
    obtain ⟨rem', rfl⟩ : ∃ r, rem = r + 1 := ⟨rem - 1, by omega⟩
    have hb' : tr a = some b := by simpa using hb
    simp [translateLoop, hb', hck]
  | succ j ih =>
    intro rem a hlt hfail hb hck
    obtain ⟨rem', rfl⟩ : ∃ r, rem = r + 1 := ⟨rem - 1, by omega⟩
    have h0 : tr a = none := by simpa using hfail 0 (by omega)
    have hrem' : rem' ≠ 0 := by omega
    have hfail' : ∀ k, k < j → tr (a + 1 + k) = none := by
      intro k hk
      have := hfail (k + 1) (by omega)
      rw [← this]
      congr 1
      omega
    have hb' : tr (a + 1 + j) = some b := by
      rw [← hb]
      congr 1
      omega
    simp only [translateLoop, h0]
    rw [if_neg hrem', ih rem' (a + 1) (by omega) hfail' hb' hck]
    have : a + 1 + j + 1 = a + (j + 1) + 1 := by omega
    rw [this]

/-- Claim C7 (amended): for every text b successfully returned by the backend,
the result of translate_text is b transformed by Python str.capitalize (first
character uppercased, all following characters lowercased) followed by
collapsing every literal backslash-space-n to backslash-n, as computed by
processBackend. -/
theorem c7_success_transform (cache : Cache) (skipped : List (List Char)) (text : List Char)
    (tr : Nat → Option (List Char)) (ic : Bool) (rp : List Char) (n j : Nat) (b : List Char)
    (hc : cachedTranslation cache text = []) (hh : containsHiragana text = false)
    (hj : j < n) (hfail : ∀ k, k < j → tr k = none) (hb : tr j = some b)
    (hck : check_format_specifiers text (processBackend b) = .ok ()) :
    translate_text cache skipped text tr ic rp n =
      .ok ⟨some (processBackend b),
           setCache cache text
             { updateEntry ((cache text).getD emptyRecord) ic rp with
                 translatedText := processBackend b },
           skipped, j + 1⟩ := by
  simp only [cachedTranslation] at hc
  have hne : ¬ ((updateEntry ((cache text).getD emptyRecord) ic rp).translatedText ≠ []) := by
    rw [updateEntry_translatedText, hc]
    exact fun hx => hx rfl
  simp only [translate_text]
  rw [if_neg hne, hh]
  simp only [Bool.false_eq_true, if_false]
  have hfail' : ∀ k, k < j → tr (0 + k) = none := by
    intro k hk
    simpa using hfail k hk
  have hb' : tr (0 + j) = some b := by simpa using hb
  rw [translateLoop_success cache skipped text tr _ b j n 0 hj hfail' hb' hck]
  simp

/-- Claim C7 (counterexample): the claim that the returned text is the backend
text with only its first letter capitalized and no other letters altered is
false: Python str.capitalize also lowercases the rest, so a backend result OK
comes back as Ok. -/
theorem c7_counterexample :
    ¬ (∀ (cache : Cache) (skipped : List (List Char)) (text : List Char)
         (tr : Nat → Option (List Char)) (ic : Bool) (rp : List Char) (n : Nat)
         (out : TTOutcome) (b : List Char),
         cachedTranslation cache text = [] → containsHiragana text = false →
         tr 0 = some b → 1 ≤ n →
         translate_text cache skipped text tr ic rp n = .ok out →
         out.text = some (claimedProcess b)) := by
  intro h
  have hmap : (translate_text (fun _ => none) [] ['你'] (fun _ => some ['O', 'K'])
      false [] 100).map TTOutcome.text = .ok (some ['O', 'k']) := by rfl
  cases hr : translate_text (fun _ => none) [] ['你'] (fun _ => some ['O', 'K']) false [] 100 with
  | error e =>
    rw [hr] at hmap
    exact absurd hmap (by simp [Except.map])
  | ok out =>
    rw [hr] at hmap
    simp only [Except.map, Except.ok.injEq] at hmap
    have hout := h (fun _ => none) [] ['你'] (fun _ => some ['O', 'K']) false [] 100 out
      ['O', 'K'] (by rfl) (by rfl) rfl (by omega) hr
    rw [hmap] at hout
    have : (['O', 'k'] : List Char) = ['O', 'K'] := by
      have := hout
      simp only [claimedProcess, capFirstClaimed] at this
      exact Option.some.injEq .. ▸ (by injection this)
    exact absurd this (by decide)

theorem translateLoop_calls_pos (cache : Cache) (skipped : List (List Char)) (text : List Char)
    (tr : Nat → Option (List Char)) (entry : TranslationRecord) :
    ∀ (rem a : Nat) (out : TTOutcome), 1 ≤ rem →
      translateLoop cache skipped text tr entry rem a = .ok out → a + 1 ≤ out.calls := by
  intro rem
  induction rem with
  | zero => intro a out h; exact absurd h (by omega)
  | succ rem ih =>
    intro a out _ heq
    cases htr : tr a with
    | some b =>
      simp only [translateLoop, htr] at heq
      cases hck : check_format_specifiers text (processBackend b) with
      | error e =>
        rw [hck] at heq
        exact absurd heq (by simp)
      | ok u =>
        cases u
        rw [hck] at heq
        simp only [Except.ok.injEq] at heq
        rw [← heq]
    | none =>
      simp only [translateLoop, htr] at heq
      by_cases hr : rem = 0
      · rw [if_pos hr] at heq
        simp only [Except.ok.injEq] at heq
        rw [← heq]
      · rw [if_neg hr] at heq
        have := ih (a + 1) out (by omega) heq
        omega

/-- Claim C9: for a fragment with no existing cache record, if the translator
fails on every attempt, translate_text returns the original text and leaves
the cache with no record for that fragment (the role flag and sighting path
are discarded), and any later sighting of the fragment invokes the translator
again (at least one backend call whenever a later call returns). -/
theorem c9_failure_discards (cache : Cache) (skipped : List (List Char)) (text : List Char)
    (tr : Nat → Option (List Char)) (ic : Bool) (rp : List Char) (n : Nat)
    (hnone : cache text = none) (hh : containsHiragana text = false)
    (hn : 1 ≤ n) (hfail : ∀ k, k < n → tr k = none) :
    translate_text cache skipped text tr ic rp n = .ok ⟨some text, cache, skipped, n⟩ ∧
    (∀ (tr2 : Nat → Option (List Char)) (ic2 : Bool) (rp2 : List Char)
       (skipped2 : List (List Char)) (n2 : Nat) (out2 : TTOutcome), 1 ≤ n2 →
       translate_text cache skipped2 text tr2 ic2 rp2 n2 = .ok out2 → 1 ≤ out2.calls) := by
  have hc : cachedTranslation cache text = [] := by
    simp [cachedTranslation, hnone, emptyRecord]
  constructor
  · have h1 := translate_text_allFail cache skipped text tr ic rp n hn hc hh hfail
    rw [h1]
    have : cacheAfterSighting cache text
        (updateEntry ((cache text).getD emptyRecord) ic rp) = cache := by
      simp [cacheAfterSighting, hnone]
    rw [this]
  · intro tr2 ic2 rp2 skipped2 n2 out2 hn2 heq
    simp only [cachedTranslation] at hc
    have hne : ¬ ((updateEntry ((cache text).getD emptyRecord) ic2 rp2).translatedText ≠ []) := by
      rw [updateEntry_translatedText, hc]
      exact fun hx => hx rfl
    simp only [translate_text] at heq
    rw [if_neg hne, hh] at heq
    simp only [Bool.false_eq_true, if_false] at heq
    have := translateLoop_calls_pos cache skipped2 text tr2 _ n2 0 out2 hn2 heq
    omega

theorem cjk_not_pyspace (c : Char) (h : isCJKchar c = true) : isPySpace c = false := by
  simp only [isCJKchar, Bool.or_eq_true, Bool.and_eq_true, decide_eq_true_eq] at h
  by_contra hne
  rw [Bool.not_eq_false] at hne
  simp only [isPySpace, Bool.or_eq_true, Bool.and_eq_true, decide_eq_true_eq] at hne
  omega

theorem cjk_not_leadDeco (c : Char) (h : isCJKchar c = true) : inLeadDeco c = false := by
  by_contra hne
  rw [Bool.not_eq_false] at hne
  simp only [inLeadDeco, leadDecoSet, List.mem_cons,
    List.not_mem_nil, or_false, decide_eq_true_eq] at hne
  rcases hne with rfl | rfl | rfl | rfl | rfl | rfl <;> exact absurd h (by decide)

theorem cjk_not_trailDeco (c : Char) (h : isCJKchar c = true) : inTrailDeco c = false := by
  by_contra hne
  rw [Bool.not_eq_false] at hne
  simp only [inTrailDeco, trailDecoSet, List.mem_cons,
    List.not_mem_nil, or_false, decide_eq_true_eq] at hne
  rcases hne with rfl | rfl | rfl | rfl | rfl | rfl <;> exact absurd h (by decide)

theorem stripWs_ne_nil_of_cjk (s : List Char) (h : containsCJK s = true) : stripWs s ≠ [] := by
  simp only [containsCJK, List.any_eq_true] at h
  obtain ⟨c, hc, hcjk⟩ := h
  have hsp := cjk_not_pyspace c hcjk
  have hdec := strip_decomp isPySpace isPySpace s c hc hsp hsp
  intro hnil
  have hmid : pyRStripP isPySpace (s.dropWhile isPySpace) = [] := hnil
  rw [hmid, List.append_nil] at hdec
  have hc' : c ∈ s.takeWhile isPySpace ++ trailRunP isPySpace s := by rw [hdec]; exact hc
  rcases List.mem_append.mp hc' with hm | hm
  · have := List.mem_takeWhile_imp hm
    rw [hsp] at this
    exact absurd this (by simp)
  · have hm' : c ∈ s.reverse.takeWhile isPySpace := List.mem_reverse.mp hm
    have := List.mem_takeWhile_imp hm'
    rw [hsp] at this
    exact absurd this (by simp)

/-- Claim C5 (counterexample): it is not true that every translatable
single-quoted span found by the scan is rewritten in the output buffer as its
double-quoted translated form: the literal-text replacement performed for an
earlier span can destroy the quoted pattern of a later span, which is then
left mangled in place. -/
theorem c5_counterexample :
    ¬ (∀ (content : List Char) (tx : List Char → List Char) (s : List Char),
        s ∈ scanSingle content → containsCJK s = true →
        occursIn (dqRewrite tx s) (singleQuotePhase tx content).1 = true) := by
  intro h
  have := h c5content c5tx c5span (by decide) (by decide)
  exact absurd this (by decide)

/-- Claim C5 (amended): for every single-quoted span whose content is
translatable, the processing step replaces every occurrence of the span's
single-quoted form present in the buffer at that point by a double-quoted
span whose interior is the captured leading whitespace, the translated core
with unescaped quote characters escaped, and the captured trailing
whitespace; the span text is exactly whitespace plus stripped core plus
whitespace, only the stripped core is submitted for translation, every quote
character in the escaped translation is preceded by a backslash, and if the
single-quoted form occurs in the buffer the double-quoted rewrite occurs in
the step's output (an earlier literal replacement may have destroyed the
pattern, in which case the span is left unrewritten). -/
theorem c5_amended (tx : List Char → List Char) (buf s : List Char)
    (hcjk : containsCJK s = true) :
    wsLead s ++ stripWs s ++ wsTrail s = s ∧
    singleQuoteStep tx buf s = (replaceAll (q1 s) (dqRewrite tx s) buf, [stripWs s]) ∧
    allEscapedB dquote none (escape_quotes (tx (stripWs s))) = true ∧
    allEscapedB squote none (escape_quotes (tx (stripWs s))) = true ∧
    (occursIn (q1 s) buf = true →
      occursIn (dqRewrite tx s) (singleQuoteStep tx buf s).1 = true) := by
  have hcjk' := hcjk
  simp only [containsCJK, List.any_eq_true] at hcjk'
  obtain ⟨c, hc, hcc⟩ := hcjk'
  have hsp := cjk_not_pyspace c hcc
  have hdecomp := strip_decomp isPySpace isPySpace s c hc hsp hsp
  have hcond : (containsCJK s && !(stripWs s).isEmpty) = true := by
    rw [hcjk, Bool.true_and, Bool.not_eq_true', List.isEmpty_eq_false]
    exact stripWs_ne_nil_of_cjk s hcjk
  have hstep : singleQuoteStep tx buf s = (replaceAll (q1 s) (dqRewrite tx s) buf, [stripWs s]) := by
    simp only [singleQuoteStep, hcond, if_true]
  have hd : dquote ≠ bslash := by decide
  have hq : squote ≠ bslash := by decide
  have hesc1 : allEscapedB dquote none (escape_quotes (tx (stripWs s))) = true :=
    allEscapedB_subUnescaped_other dquote squote hd (subUnescaped dquote none (tx (stripWs s)))
      none (allEscapedB_subUnescaped dquote hd (tx (stripWs s)) none)
  have hesc2 : allEscapedB squote none (escape_quotes (tx (stripWs s))) = true :=
    allEscapedB_subUnescaped squote hq (subUnescaped dquote none (tx (stripWs s))) none
  refine ⟨hdecomp, hstep, hesc1, hesc2, ?_⟩
  intro hocc
  rw [hstep]
  exact occursIn_replaceAll (q1 s) (dqRewrite tx s) buf (by simp [q1]) hocc

/-- Claim C6 (counterexample): it is not true that every translatable comment
span has its decoration reattached around its translated core in the
rewritten output buffer: the literal-text replacement performed for an
earlier comment can destroy a later comment's text, whose rewrite therefore
never appears. -/
theorem c6_counterexample :
    ¬ (∀ (content : List Char) (tx : List Char → List Char) (comment : List Char),
        comment ∈ scanComments content → containsCJK comment = true →
        occursIn (commentRewrite tx comment) (commentPhase tx content).1 = true) := by
  intro h
  have := h c6content c6tx c6comment (by decide) (by decide)
  exact absurd this (by decide)

/-- Claim C6 (amended): for every translatable comment span, the maximal
leading run of leading-decoration characters and the maximal trailing run of
trailing-decoration characters split the span around the trimmed core, only
the trimmed core is submitted for translation, and the processing step
replaces every occurrence of the comment present in the buffer at that point
by the leading run, translated core, and trailing run reattached unchanged;
if the comment still occurs in the buffer, the rewritten span occurs in the
step's output (an earlier literal replacement may have destroyed the
pattern, in which case the span is left unrewritten). -/
theorem c6_amended (tx : List Char → List Char) (buf comment : List Char)
    (hcjk : containsCJK comment = true) :
    decoLead comment ++ trimComment comment ++ decoTrail comment = comment ∧
    commentStep tx buf comment =
      (replaceAll comment (commentRewrite tx comment) buf, [trimComment comment]) ∧
    (occursIn comment buf = true →
      occursIn (commentRewrite tx comment) (commentStep tx buf comment).1 = true) := by
  have hcjk' := hcjk
  simp only [containsCJK, List.any_eq_true] at hcjk'
  obtain ⟨c, hc, hcc⟩ := hcjk'
  have hdecomp := strip_decomp inLeadDeco inTrailDeco comment c hc
    (cjk_not_leadDeco c hcc) (cjk_not_trailDeco c hcc)
  have hcond : (containsCJK comment && !(stripWs comment).isEmpty) = true := by
    rw [hcjk, Bool.true_and, Bool.not_eq_true', List.isEmpty_eq_false]
    exact stripWs_ne_nil_of_cjk comment hcjk
  have hstep : commentStep tx buf comment =
      (replaceAll comment (commentRewrite tx comment) buf, [trimComment comment]) := by
    simp only [commentStep, hcond, if_true]
  refine ⟨hdecomp, hstep, ?_⟩
  intro hocc
  rw [hstep]
  have hne : comment ≠ [] := by
    intro hnil
    rw [hnil] at hc
    exact absurd hc (List.not_mem_nil c)
  exact occursIn_replaceAll comment (commentRewrite tx comment) buf hne hocc

/-- Claim C8 (counterexample): it is not true that the save operation
completes without raising for every failure mode of the store backend: a
non-transient HttpError during the open attempts (any status other than 500
or 503, here 403) is re-raised out of the function. -/
theorem c8_counterexample :
    ¬ (∀ (attempts : Nat → OpenAttempt) (updateFails : Bool) (s : Nat) (sl : List Nat),
        save_translations attempts updateFails ≠ .raised s sl) := by
  intro h
  exact h (fun _ => .httpErr 403) false 403 [] rfl

/-- Claim C8 (amended): saving retries the sheet-open on transient server
errors (HTTP 500 or 503) up to 3 bounded attempts with exponential backoff
sleeps of 2^attempt, and never raises as long as every open failure is
transient: if all three attempts fail transiently it falls back to writing
the local snapshot (after sleeps 1, 2, 4), and if the open succeeds but the
update raises it also falls back to the local snapshot; a non-transient HTTP
error during open, however, raises fatally. -/
theorem c8_amended (attempts : Nat → OpenAttempt) (updateFails : Bool)
    (h : ∀ k, k < 3 →
      attempts k = .ok ∨ attempts k = .httpErr 500 ∨ attempts k = .httpErr 503) :
    (∀ (s : Nat) (sl : List Nat), save_translations attempts updateFails ≠ .raised s sl) ∧
    ((∀ k, k < 3 → attempts k ≠ .ok) →
      save_translations attempts updateFails = .savedToBackup [1, 2, 4]) ∧
    (attempts 0 = .ok → updateFails = true →
      save_translations attempts updateFails = .savedToBackup []) := by
  refine ⟨?_, ?_, ?_⟩
  · intro s sl
    unfold save_translations
    rcases h 0 (by omega) with h0 | h0 | h0 <;>
      rcases h 1 (by omega) with h1 | h1 | h1 <;>
        rcases h 2 (by omega) with h2 | h2 | h2 <;>
          cases updateFails <;>
            simp [saveLoop, h0, h1, h2]
  · intro hfail
    have h0 : attempts 0 = .httpErr 500 ∨ attempts 0 = .httpErr 503 := by
      rcases h 0 (by omega) with hk | hk | hk
      · exact absurd hk (hfail 0 (by omega))
      · exact Or.inl hk
      · exact Or.inr hk
    have h1 : attempts 1 = .httpErr 500 ∨ attempts 1 = .httpErr 503 := by
      rcases h 1 (by omega) with hk | hk | hk
      · exact absurd hk (hfail 1 (by omega))
      · exact Or.inl hk
      · exact Or.inr hk
    have h2 : attempts 2 = .httpErr 500 ∨ attempts 2 = .httpErr 503 := by
      rcases h 2 (by omega) with hk | hk | hk
      · exact absurd hk (hfail 2 (by omega))
      · exact Or.inl hk
      · exact Or.inr hk
    unfold save_translations
    rcases h0 with h0 | h0 <;> rcases h1 with h1 | h1 <;> rcases h2 with h2 | h2 <;>
      simp [saveLoop, h0, h1, h2]
  · intro h0 hu
    unfold save_translations
    simp [saveLoop, h0, hu]

theorem c8_amended_witness :
    (∀ k, k < 3 →
      c8attempts k = .ok ∨ c8attempts k = .httpErr 500 ∨ c8attempts k = .httpErr 503) ∧
    ((∀ (s : Nat) (sl : List Nat), save_translations c8attempts true ≠ .raised s sl) ∧
     ((∀ k, k < 3 → c8attempts k ≠ .ok) →
       save_translations c8attempts true = .savedToBackup [1, 2, 4]) ∧
     (c8attempts 0 = .ok → true = true →
       save_translations c8attempts true = .savedToBackup [])) :=
  ⟨fun _ _ => Or.inr (Or.inl rfl),
   c8_amended c8attempts true (fun _ _ => Or.inr (Or.inl rfl))⟩

def c1rec : TranslationRecord := { translatedText := ['H', 'i'] }

def c1cache : Cache := fun k => if k = ['你'] then some c1rec else none

theorem c1_cached_reuse_witness :
    c1cache ['你'] = some c1rec ∧ c1rec.translatedText ≠ [] ∧
    translate_text c1cache [] ['你'] (fun _ => none) true ['p'] 5 =
      match check_format_specifiers ['你'] c1rec.translatedText with
      | .error err => .error err
      | .ok _ =>
        .ok ⟨some c1rec.translatedText, setCache c1cache ['你'] (updateEntry c1rec true ['p']),
             [], 0⟩ :=
  ⟨rfl, by decide,
   c1_cached_reuse c1cache [] ['你'] (fun _ => none) true ['p'] 5 c1rec rfl (by decide)⟩

theorem c3_retries_exhausted_witness :
    1 ≤ 2 ∧ cachedTranslation (fun _ => none) ['你'] = [] ∧
    containsHiragana ['你'] = false ∧
    translate_text (fun _ => none) [] ['你'] (fun _ => none) false ['p'] 2 =
      .ok ⟨some ['你'],
           cacheAfterSighting (fun _ => none) ['你']
             (updateEntry (((fun _ => none : Cache) ['你']).getD emptyRecord) false ['p']),
           [], 2⟩ :=
  ⟨by omega, by decide, by decide,
   c3_retries_exhausted (fun _ => none) [] ['你'] (fun _ => none) false ['p'] 2
     (by omega) (by decide) (by decide) (fun _ _ => rfl)⟩

theorem c4_japanese_skip_witness :
    cachedTranslation (fun _ => none) ['あ'] = [] ∧ containsHiragana ['あ'] = true ∧
    translate_text (fun _ => none) [] ['あ'] (fun _ => none) true ['p'] 7 =
      .ok ⟨some ['あ'],
           setCache (fun _ => none) ['あ']
             { updateEntry (((fun _ => none : Cache) ['あ']).getD emptyRecord) true ['p'] with
                 translatedText := ['あ'] },
           [] ++ [['あ']], 0⟩ :=
  ⟨by decide, by decide,
   c4_japanese_skip (fun _ => none) [] ['あ'] (fun _ => none) true ['p'] 7
     (by decide) (by decide)⟩

theorem c7_success_transform_witness :
    cachedTranslation (fun _ => none) ['你'] = [] ∧ containsHiragana ['你'] = false ∧
    0 < 3 ∧ (fun _ => some ['o', 'k'] : Nat → Option (List Char)) 0 = some ['o', 'k'] ∧
    check_format_specifiers ['你'] (processBackend ['o', 'k']) = .ok () ∧
    translate_text (fun _ => none) [] ['你'] (fun _ => some ['o', 'k']) false ['p'] 3 =
      .ok ⟨some (processBackend ['o', 'k']),
           setCache (fun _ => none) ['你']
             { updateEntry (((fun _ => none : Cache) ['你']).getD emptyRecord) false ['p'] with
                 translatedText := processBackend ['o', 'k'] },
           [], 0 + 1⟩ :=
  ⟨by decide, by decide, by omega, rfl, rfl,
   c7_success_transform (fun _ => none) [] ['你'] (fun _ => some ['o', 'k']) false ['p'] 3 0
     ['o', 'k'] (by decide) (by decide) (by omega) (fun k hk => absurd hk (by omega)) rfl
     rfl⟩

theorem c9_failure_discards_witness :
    (fun _ => none : Cache) ['你'] = none ∧ containsHiragana ['你'] = false ∧ 1 ≤ 2 ∧
    (translate_text (fun _ => none) [] ['你'] (fun _ => none) false ['p'] 2 =
       .ok ⟨some ['你'], (fun _ => none : Cache), [], 2⟩ ∧
     (∀ (tr2 : Nat → Option (List Char)) (ic2 : Bool) (rp2 : List Char)
        (skipped2 : List (List Char)) (n2 : Nat) (out2 : TTOutcome), 1 ≤ n2 →
        translate_text (fun _ => none) skipped2 ['你'] tr2 ic2 rp2 n2 = .ok out2 →
        1 ≤ out2.calls)) :=
  ⟨rfl, by decide, by omega,
   c9_failure_discards (fun _ => none) [] ['你'] (fun _ => none) false ['p'] 2
     rfl (by decide) (by omega) (fun _ _ => rfl)⟩

def c5wtx : List Char → List Char := fun _ => ['A']

theorem c5_amended_witness :
    containsCJK ['好'] = true ∧
    (wsLead ['好'] ++ stripWs ['好'] ++ wsTrail ['好'] = ['好'] ∧
     singleQuoteStep c5wtx (q1 ['好']) ['好'] =
       (replaceAll (q1 ['好']) (dqRewrite c5wtx ['好']) (q1 ['好']), [stripWs ['好']]) ∧
     allEscapedB dquote none (escape_quotes (c5wtx (stripWs ['好']))) = true ∧
     allEscapedB squote none (escape_quotes (c5wtx (stripWs ['好']))) = true ∧
     (occursIn (q1 ['好']) (q1 ['好']) = true →
       occursIn (dqRewrite c5wtx ['好']) (singleQuoteStep c5wtx (q1 ['好']) ['好']).1 = true)) :=
  ⟨by decide, c5_amended c5wtx (q1 ['好']) ['好'] (by decide)⟩

def c6wtx : List Char → List Char := fun _ => ['A']

def c6wcomment : List Char := ['-', '-', ' ', '你']

theorem c6_amended_witness :
    containsCJK c6wcomment = true ∧
    (decoLead c6wcomment ++ trimComment c6wcomment ++ decoTrail c6wcomment = c6wcomment ∧
     commentStep c6wtx c6wcomment c6wcomment =
       (replaceAll c6wcomment (commentRewrite c6wtx c6wcomment) c6wcomment,
        [trimComment c6wcomment]) ∧
     (occursIn c6wcomment c6wcomment = true →
       occursIn (commentRewrite c6wtx c6wcomment)
         (commentStep c6wtx c6wcomment c6wcomment).1 = true)) :=
  ⟨by decide, c6_amended c6wtx c6wcomment c6wcomment (by decide)⟩

end TranslateMod
